import Mathlib

/-!
Verification of the penney-scripts register-map and command-dispatch engine.

This file shallowly embeds the parts of `src/scripts/fifo.py` and
`src/mmio/mmp.py` that the specification claims talk about, and proves or
refutes each claim against the embedding.  Python dicts are embedded as
insertion-ordered association lists, Python `None` as `Option.none`, and a
Python statement that raises an exception is embedded as `Except.error`
carrying the exception text.
-/

namespace PenneyScripts

/-! ## Circular FIFO buffer (src/scripts/fifo.py, class FIFO) -/

structure FIFO (α : Type) where
  depth : Nat
  blockOnFull : Bool
  buffer : List (Option α)
  addPtr : Nat
  getPtr : Nat
  empty : Bool
deriving DecidableEq

namespace FIFO

/-- Embeds `FIFO.__init__` (fifo.py:10-21): buffer of `bufferDepth` cells,
each initialized to Python `None`, both pointers at 0, empty flag set. -/
def new (α : Type) (bufferDepth : Nat) (blockOnFull : Bool) : FIFO α :=
  { depth := bufferDepth
    blockOnFull := blockOnFull
    buffer := List.replicate bufferDepth none
    addPtr := 0
    getPtr := 0
    empty := true }

/-- Embeds `FIFO.isFull` (fifo.py:101-103). -/
def isFull (f : FIFO α) : Bool :=
  !f.empty && (f.addPtr == f.getPtr)

/-- Embeds `FIFO.isEmpty` (fifo.py:105-107). -/
def isEmpty (f : FIFO α) : Bool :=
  f.empty

/-- Embeds `FIFO.getNumItems` (fifo.py:109-115). -/
def getNumItems (f : FIFO α) : Nat :=
  if f.isFull then f.depth else (f.addPtr + f.depth - f.getPtr) % f.depth

/-- Embeds `FIFO.add` (fifo.py:34-54).  Returns the Python return value
(`False` on a rejected add under the blocking policy) together with the
state after the call. -/
def add (f : FIFO α) (item : α) : Bool × FIFO α :=
  if f.isFull then
    if f.blockOnFull then
      (false, f)
    else
      let f1 := { f with getPtr := (f.getPtr + 1) % f.depth }
      (true, { f1 with
                buffer := f1.buffer.set f1.addPtr (some item)
                addPtr := (f1.addPtr + 1) % f1.depth
                empty := false })
  else
    (true, { f with
              buffer := f.buffer.set f.addPtr (some item)
              addPtr := (f.addPtr + 1) % f.depth
              empty := false })

/-- Embeds `FIFO.load` (fifo.py:72-84): peek at the head cell without
moving any pointer; `None` when empty. -/
def load (f : FIFO α) : Option α :=
  if f.isEmpty then none else f.buffer.getD f.getPtr none

/-- Embeds `FIFO.inc` (fifo.py:86-99): advance the get pointer, setting the
empty flag when the pointers meet; no-op on an empty buffer. -/
def inc (f : FIFO α) : FIFO α :=
  if f.isEmpty then f
  else
    let g := (f.getPtr + 1) % f.depth
    { f with getPtr := g, empty := f.addPtr == g }

/-- Representation invariant of the ring buffer: positive depth, buffer list
of exactly `depth` cells, in-range pointers, and the empty flag only set when
the pointers coincide.  `FIFO.new` establishes it and every operation
preserves it. -/
def Inv (f : FIFO α) : Prop :=
  0 < f.depth ∧ f.buffer.length = f.depth ∧ f.addPtr < f.depth ∧
    f.getPtr < f.depth ∧ (f.empty = true → f.addPtr = f.getPtr)

instance (f : FIFO α) : Decidable (Inv f) := by
  unfold Inv; infer_instance

/-- Abstraction of the ring buffer to the queue it represents, oldest item
first. -/
def absList (f : FIFO α) : List (Option α) :=
  (List.range f.getNumItems).map (fun i => f.buffer.getD ((f.getPtr + i) % f.depth) none)

lemma headD_eq_getD (l : List β) (d : β) : l.headD d = l.getD 0 d := by
  cases l <;> rfl

lemma getD_range_map (g : Nat → β) (n i : Nat) (d : β) (h : i < n) :
    ((List.range n).map g).getD i d = g i := by
  simp [List.getD_eq_getElem?_getD, List.getElem?_map, List.getElem?_range, h]

lemma mod_add_cancel {d a i j : Nat} (hi : i < d) (hj : j < d)
    (h : (a + i) % d = (a + j) % d) : i = j := by
  have h2 : i ≡ j [MOD d] := Nat.ModEq.add_left_cancel' a h
  have h3 : i % d = j % d := h2
  rwa [Nat.mod_eq_of_lt hi, Nat.mod_eq_of_lt hj] at h3

lemma numItems_le_depth (f : FIFO α) (hInv : Inv f) : f.getNumItems ≤ f.depth := by
  obtain ⟨hd, -, -, -, -⟩ := hInv
  unfold getNumItems
  split
  · exact Nat.le_refl _
  · exact Nat.le_of_lt (Nat.mod_lt _ hd)

lemma empty_numItems (f : FIFO α) (hInv : Inv f) (he : f.empty = true) :
    f.getNumItems = 0 := by
  obtain ⟨hd, -, -, -, hflag⟩ := hInv
  have hpq := hflag he
  unfold getNumItems isFull
  rw [he, hpq]
  simp [Nat.sub_add_cancel]

lemma addPtr_eq (f : FIFO α) (hInv : Inv f) :
    f.addPtr = (f.getPtr + f.getNumItems) % f.depth := by
  obtain ⟨hd, -, ha, hg, -⟩ := hInv
  unfold getNumItems
  by_cases hfull : f.isFull = true
  · have hpq : f.addPtr = f.getPtr := by
      unfold isFull at hfull
      simp only [Bool.and_eq_true, beq_iff_eq, Bool.not_eq_true'] at hfull
      exact hfull.2
    rw [hfull, if_pos rfl, hpq, Nat.add_mod_right, Nat.mod_eq_of_lt hg]
  · rw [if_neg hfull, Nat.add_mod_mod]
    have : f.getPtr + (f.addPtr + f.depth - f.getPtr) = f.addPtr + f.depth := by omega
    rw [this, Nat.add_mod_right, Nat.mod_eq_of_lt ha]

lemma numItems_char (f : FIFO α) (hInv : Inv f) (he : f.empty = false) (m : Nat)
    (h1 : 1 ≤ m) (h2 : m ≤ f.depth) (hp : f.addPtr = (f.getPtr + m) % f.depth) :
    f.getNumItems = m := by
  obtain ⟨hd, -, ha, hg, -⟩ := hInv
  rcases Nat.lt_or_ge m f.depth with hlt | hge
  · have hne : f.addPtr ≠ f.getPtr := by
      intro hcontra
      have hx : (f.getPtr + m) % f.depth = f.getPtr := by
        rw [← hp]; exact hcontra
      have : (f.getPtr + m) % f.depth = (f.getPtr + 0) % f.depth := by
        rw [hx, Nat.add_zero, Nat.mod_eq_of_lt hg]
      exact absurd (mod_add_cancel hlt hd this) (by omega)
    have hfull : f.isFull = false := by
      unfold isFull
      simp [he, hne]
    unfold getNumItems
    rw [hfull, if_neg (by simp), hp]
    have hsub : (f.getPtr + m) % f.depth + f.depth - f.getPtr
        = (f.getPtr + m) % f.depth + (f.depth - f.getPtr) := by omega
    rw [hsub, Nat.mod_add_mod]
    have : f.getPtr + m + (f.depth - f.getPtr) = m + f.depth := by omega
    rw [this, Nat.add_mod_right, Nat.mod_eq_of_lt hlt]
  · have hm : m = f.depth := by omega
    subst hm
    have hpq : f.addPtr = f.getPtr := by
      rw [hp, Nat.add_mod_right, Nat.mod_eq_of_lt hg]
    have hfull : f.isFull = true := by
      unfold isFull
      simp [he, hpq]
    unfold getNumItems
    rw [hfull, if_pos rfl]

lemma nonempty_numItems_pos (f : FIFO α) (hInv : Inv f) (he : f.empty = false) :
    1 ≤ f.getNumItems := by
  obtain ⟨hd, -, ha, hg, -⟩ := hInv
  unfold getNumItems
  by_cases hfull : f.isFull = true
  · rw [hfull, if_pos rfl]; omega
  · rw [if_neg hfull]
    have hne : f.addPtr ≠ f.getPtr := by
      intro hcontra
      apply hfull
      unfold isFull
      simp [he, hcontra]
    set m := f.addPtr + f.depth - f.getPtr with hmdef
    have hm1 : 1 ≤ m := by omega
    have hm2 : m < 2 * f.depth := by omega
    rcases Nat.lt_or_ge m f.depth with hlt | hge
    · rw [Nat.mod_eq_of_lt hlt]; omega
    · rw [Nat.mod_eq_sub_mod hge, Nat.mod_eq_of_lt (by omega)]
      omega

lemma getD_set_self (l : List β) (i : Nat) (a d : β) (h : i < l.length) :
    (l.set i a).getD i d = a := by
  simp [List.getD_eq_getElem?_getD, List.getElem?_set_self, h]

lemma getD_set_ne (l : List β) (i j : Nat) (a d : β) (h : i ≠ j) :
    (l.set i a).getD j d = l.getD j d := by
  simp [List.getD_eq_getElem?_getD, List.getElem?_set_ne h]

lemma load_eq_headD (f : FIFO α) (hInv : Inv f) :
    f.load = (absList f).headD none := by
  by_cases he : f.empty = true
  · unfold load isEmpty absList
    rw [he, if_pos rfl, empty_numItems f hInv he]
    rfl
  · have he' : f.empty = false := by simp at he; exact he
    have hpos := nonempty_numItems_pos f hInv he'
    obtain ⟨hd, hlen, ha, hg, -⟩ := hInv
    unfold load isEmpty absList
    rw [he', if_neg (by simp), headD_eq_getD, getD_range_map _ _ _ _ hpos,
      Nat.add_zero, Nat.mod_eq_of_lt hg]

lemma add_not_full (f : FIFO α) (x : α) (hInv : Inv f) (hfull : f.isFull = false) :
    (f.add x).1 = true ∧
      Inv (f.add x).2 ∧
      absList (f.add x).2 = absList f ++ [some x] := by
  have hInv' := hInv
  obtain ⟨hd, hlen, ha, hg, -⟩ := hInv'
  have hres : f.add x = (true, { f with
      buffer := f.buffer.set f.addPtr (some x)
      addPtr := (f.addPtr + 1) % f.depth
      empty := false }) := by
    unfold add
    rw [hfull]
    simp
  set f' : FIFO α := { f with
      buffer := f.buffer.set f.addPtr (some x)
      addPtr := (f.addPtr + 1) % f.depth
      empty := false } with hf'
  have hInvNew : Inv f' := by
    refine ⟨hd, ?_, Nat.mod_lt _ hd, hg, by simp [hf']⟩
    simp [hf', hlen]
  set n := f.getNumItems with hn
  have hnd : n < f.depth := by
    have := numItems_le_depth f hInv
    rcases Nat.lt_or_ge n f.depth with h | h
    · exact h
    · exfalso
      have hnd : n = f.depth := by omega
      have hpq : f.addPtr = f.getPtr := by
        have := addPtr_eq f hInv
        rw [← hn, hnd, Nat.add_mod_right, Nat.mod_eq_of_lt hg] at this
        exact this
      have hemp : f.empty = true := by
        by_contra hne
        have hne' : f.empty = false := by
          cases hflag : f.empty
          · rfl
          · exact absurd hflag hne
        have : f.isFull = true := by unfold isFull; simp [hne', hpq]
        rw [this] at hfull; cases hfull
      have := empty_numItems f hInv hemp
      omega
  have haeq := addPtr_eq f hInv
  have hcount : f'.getNumItems = n + 1 := by
    apply numItems_char f' hInvNew (by simp [hf']) (n + 1) (by omega)
      (by simp [hf']; omega)
    show (f.addPtr + 1) % f.depth = (f.getPtr + (n + 1)) % f.depth
    rw [haeq, ← hn, Nat.mod_add_mod, ← Nat.add_assoc]
  have h2 : (f.add x).2 = f' := by rw [hres]
  refine ⟨by rw [hres], h2 ▸ hInvNew, ?_⟩
  rw [h2]
  unfold absList
  rw [hcount, ← hn]
  have hgp : f'.getPtr = f.getPtr := rfl
  have hdp : f'.depth = f.depth := rfl
  rw [List.range_succ, List.map_append, hgp, hdp]
  congr 1
  · apply List.map_congr_left
    intro i hi
    have hi' : i < n := List.mem_range.mp hi
    have hne : (f.getPtr + i) % f.depth ≠ f.addPtr := by
      intro hcontra
      rw [haeq, ← hn] at hcontra
      exact absurd (mod_add_cancel (by omega) hnd hcontra) (by omega)
    show f'.buffer.getD ((f.getPtr + i) % f.depth) none
        = f.buffer.getD ((f.getPtr + i) % f.depth) none
    exact getD_set_ne _ _ _ _ _ (fun h => hne h.symm)
  · have hidx : (f.getPtr + n) % f.depth = f.addPtr := (haeq.symm : _)
    show [f'.buffer.getD ((f.getPtr + n) % f.depth) none] = [some x]
    rw [hidx]
    show [(f.buffer.set f.addPtr (some x)).getD f.addPtr none] = [some x]
    rw [getD_set_self _ _ _ _ (by omega)]

lemma inc_spec (f : FIFO α) (hInv : Inv f) :
    Inv f.inc ∧ absList f.inc = (absList f).tail := by
  have hInv' := hInv
  obtain ⟨hd, hlen, ha, hg, -⟩ := hInv'
  by_cases he : f.empty = true
  · have hni := empty_numItems f hInv he
    have habs : absList f = [] := by unfold absList; rw [hni]; rfl
    have : f.inc = f := by unfold inc isEmpty; rw [he]; simp
    rw [this, habs]
    exact ⟨hInv, rfl⟩
  · have he' : f.empty = false := by
      cases hflag : f.empty <;> simp_all
    set n := f.getNumItems with hn
    have hpos := nonempty_numItems_pos f hInv he'
    have hnd := numItems_le_depth f hInv
    have haeq := addPtr_eq f hInv
    set g1 := (f.getPtr + 1) % f.depth with hg1
    have hres : f.inc = { f with getPtr := g1, empty := f.addPtr == g1 } := by
      unfold inc isEmpty
      rw [he']
      simp
    set f' : FIFO α := { f with getPtr := g1, empty := f.addPtr == g1 } with hf'
    have hInvNew : Inv f' := by
      refine ⟨hd, hlen, ha, Nat.mod_lt _ hd, ?_⟩
      intro hemp
      simp only [hf'] at hemp ⊢
      exact (beq_iff_eq.mp hemp : _)
    have hcount : f'.getNumItems = n - 1 := by
      by_cases hpq : f.addPtr = g1
      · -- the consumed item was the only one: n = 1
        have hn1 : n = 1 := by
          have hmod : (f.getPtr + n) % f.depth = (f.getPtr + 1) % f.depth := by
            rw [← haeq, hpq, hg1]
          have hcongr : n % f.depth = 1 % f.depth :=
            Nat.ModEq.add_left_cancel' f.getPtr hmod
          rcases Nat.lt_or_ge n f.depth with hlt | hge
          · rcases Nat.lt_or_ge 1 f.depth with h1 | h1
            · exact mod_add_cancel hlt h1 hmod
            · omega
          · have hnn : n = f.depth := by omega
            rw [hnn, Nat.mod_self] at hcongr
            have : f.depth ∣ 1 := Nat.dvd_of_mod_eq_zero hcongr.symm
            have := Nat.le_of_dvd (by omega) this
            omega
        have hemp' : f'.empty = true := by simp [hf', hpq]
        have hfull' : f'.isFull = false := by
          unfold isFull; rw [hemp']; rfl
        unfold getNumItems
        rw [hfull', if_neg (by simp)]
        have : f'.addPtr = f'.getPtr := by simp [hf', hpq]
        rw [this]
        simp [hn1]
      · have hn2 : 2 ≤ n := by
          rcases Nat.lt_or_ge n 2 with h | h
          · exfalso
            have hn1 : n = 1 := by omega
            apply hpq
            rw [haeq, ← hn, hn1, hg1]
          · exact h
        apply numItems_char f' hInvNew (by simp [hf', hpq]) (n - 1) (by omega)
          (by simp [hf']; omega)
        show f.addPtr = (g1 + (n - 1)) % f.depth
        rw [hg1, Nat.mod_add_mod, haeq, ← hn]
        congr 1
        omega
    refine ⟨hres ▸ hInvNew, ?_⟩
    rw [hres]
    unfold absList
    rw [hcount, ← hn]
    have hsucc : n = (n - 1) + 1 := by omega
    conv_rhs => rw [hsucc, List.range_succ_eq_map, List.map_cons, List.tail_cons, List.map_map]
    apply List.map_congr_left
    intro i hi
    show f'.buffer.getD ((f'.getPtr + i) % f'.depth) none
        = f.buffer.getD ((f.getPtr + (i + 1)) % f.depth) none
    have : (f'.getPtr + i) % f'.depth = (f.getPtr + (i + 1)) % f.depth := by
      show (g1 + i) % f.depth = _
      rw [hg1, Nat.mod_add_mod]
      congr 1
      omega
    rw [this]

lemma absList_getD (f : FIFO α) (k : Nat) (hk : k < f.getNumItems) :
    (absList f).getD k none = f.buffer.getD ((f.getPtr + k) % f.depth) none := by
  unfold absList
  exact getD_range_map _ _ _ _ hk

/-- Common tail of `FIFO._convertGetIndex` (fifo.py:146-152), reached after
the negative-index adjustment with the (now nonnegative) index `i`. -/
def convertGetIndexChecked (f : FIFO α) (i : Int) : Except String (Option Int) :=
  if i > (f.depth : Int) - 1 then
    Except.error "IndexError: Buffer index out of range."
  else if i ≤ (f.getNumItems : Int) - 1 then
    Except.ok (some ((i + f.getPtr) % (f.depth : Int)))
  else
    Except.ok none

/-- Embeds `FIFO._convertGetIndex` (fifo.py:140-152) over Python signed
integers.  A raised `IndexError` is the `Except.error` branch; the final
fall-through `return None` of the source is `Except.ok none`. -/
def convertGetIndex (f : FIFO α) (index : Int) : Except String (Option Int) :=
  if index < 0 then
    (if (f.getNumItems : Int) + index < 0 then
      Except.error "IndexError: Buffer index out of range."
    else convertGetIndexChecked f ((f.getNumItems : Int) + index))
  else convertGetIndexChecked f index

/-- Embeds `FIFO.__getitem__` (fifo.py:120-124): a converted index of
Python `None` makes the subscript return `None`; otherwise the buffer cell
at the converted index is returned. -/
def getItem (f : FIFO α) (index : Int) : Except String (Option α) :=
  match convertGetIndex f index with
  | Except.error e => Except.error e
  | Except.ok none => Except.ok none
  | Except.ok (some i) => Except.ok (f.buffer.getD i.toNat none)

end FIFO

/-!
Claim C4 — queue FIFO order and two-phase safety, via the list-queue
abstraction `FIFO.absList` (oldest first).
-/

/-- C4: on any reachable (invariant-satisfying) blocking FIFO state,
`load()` peeks the oldest unconsumed item without consuming it (it is a pure
read, so any number of repeated `load()` calls with no intervening `inc()`
return the same item), a successful `add` appends the new item at the tail
of the abstract queue, and `inc()` (advance) removes exactly the head: items
are therefore consumed in strict insertion order. -/
theorem fifo_two_phase_order (α : Type) (f : FIFO α) (hInv : FIFO.Inv f) :
    FIFO.load f = (FIFO.absList f).headD none ∧
    (∀ x : α, f.blockOnFull = true → (FIFO.add f x).1 = true →
      FIFO.Inv (FIFO.add f x).2 ∧
      FIFO.absList (FIFO.add f x).2 = FIFO.absList f ++ [some x]) ∧
    FIFO.Inv (FIFO.inc f) ∧
    FIFO.absList (FIFO.inc f) = (FIFO.absList f).tail := by
  refine ⟨FIFO.load_eq_headD f hInv, ?_, FIFO.inc_spec f hInv⟩
  intro x hblock hadd
  have hfull : f.isFull = false := by
    cases hf : f.isFull
    · rfl
    · exfalso
      unfold FIFO.add at hadd
      rw [hf, if_pos rfl, hblock, if_pos rfl] at hadd
      cases hadd
  obtain ⟨-, h1, h2⟩ := FIFO.add_not_full f x hInv hfull
  exact ⟨h1, h2⟩

/-- Witness for C4 at a concrete state: a fresh blocking FIFO of depth 3
holding one item. -/
theorem fifo_two_phase_order_witness :
    FIFO.Inv ((FIFO.add (FIFO.new Nat 3 true) 7).2) ∧
      FIFO.load ((FIFO.add (FIFO.new Nat 3 true) 7).2)
        = (FIFO.absList ((FIFO.add (FIFO.new Nat 3 true) 7).2)).headD none :=
  ⟨by decide, (fifo_two_phase_order Nat ((FIFO.add (FIFO.new Nat 3 true) 7).2)
      (by decide)).1⟩

/-!
Claim C3 — processQueue dispatches at most one command per call and the queue
advances exactly on transport success.
-/

/-- Command tuples `(rw, regAddr, regVal)` placed on the queue by
`addReadToQueue` / `addWriteToQueue` (mmp.py:124-138). -/
structure Cmd where
  rw : Nat
  regAddr : Nat
  regVal : Nat
deriving DecidableEq

/-- `MMPeriph._CMD_WRITE` (mmp.py:52). -/
def cmdWRITE : Nat := 0

/-- `MMPeriph._CMD_READ` (mmp.py:53). -/
def cmdREAD : Nat := 1

/-- Embeds `MMPeriph.processQueue` (mmp.py:109-122).  The transport legs
`readRegister` / `writeRegister` (protocol packing plus `phy.transmit`,
mmp.py:84-93) are abstracted into the oracles `sendRead` / `sendWrite`
returning the Boolean transmit result.  The first component of the result
records the transport calls made during the call, in order. -/
def processQueue (sendRead : Nat → Bool) (sendWrite : Nat → Nat → Bool)
    (q : FIFO Cmd) : List Cmd × FIFO Cmd :=
  match FIFO.load q with
  | none => ([], q)
  | some cmd =>
      let dispatched : List Cmd × Bool :=
        if cmd.rw == cmdREAD then ([cmd], sendRead cmd.regAddr)
        else if cmd.rw == cmdWRITE then ([cmd], sendWrite cmd.regAddr cmd.regVal)
        else ([], false)
      if dispatched.2 then (dispatched.1, FIFO.inc q) else (dispatched.1, q)

/-- C3: one `processQueue` call makes at most one transport call; when the
head command's transport call succeeds the abstract queue loses exactly its
head, and when it fails (or no transport call is made) the queue state is
entirely unchanged, so the identical command is still at the head for the
next call — nothing is lost and nothing is consumed twice. -/
theorem processQueue_two_phase (sendRead : Nat → Bool) (sendWrite : Nat → Nat → Bool)
    (q : FIFO Cmd) (hInv : FIFO.Inv q) :
    (processQueue sendRead sendWrite q).1.length ≤ 1 ∧
    (∀ cmd, FIFO.load q = some cmd →
      ((if cmd.rw == cmdREAD then sendRead cmd.regAddr
        else if cmd.rw == cmdWRITE then sendWrite cmd.regAddr cmd.regVal
        else false) = true →
        FIFO.Inv (processQueue sendRead sendWrite q).2 ∧
        FIFO.absList (processQueue sendRead sendWrite q).2 = (FIFO.absList q).tail) ∧
      ((if cmd.rw == cmdREAD then sendRead cmd.regAddr
        else if cmd.rw == cmdWRITE then sendWrite cmd.regAddr cmd.regVal
        else false) = false →
        (processQueue sendRead sendWrite q).2 = q ∧
        FIFO.load (processQueue sendRead sendWrite q).2 = some cmd)) ∧
    (FIFO.load q = none →
      (processQueue sendRead sendWrite q).1 = [] ∧
      (processQueue sendRead sendWrite q).2 = q) := by
  cases hload : FIFO.load q with
  | none =>
      refine ⟨?_, ?_, fun _ => ⟨?_, ?_⟩⟩ <;>
        simp [processQueue, hload]
  | some cmd =>
      set b : Bool := (if cmd.rw == cmdREAD then sendRead cmd.regAddr
        else if cmd.rw == cmdWRITE then sendWrite cmd.regAddr cmd.regVal
        else false) with hb
      have hq : processQueue sendRead sendWrite q
          = (if b
              then ((if cmd.rw == cmdREAD ∨ cmd.rw == cmdWRITE then [cmd] else []), FIFO.inc q)
              else ((if cmd.rw == cmdREAD ∨ cmd.rw == cmdWRITE then [cmd] else []), q)) := by
        unfold processQueue
        rw [hload]
        by_cases h1 : cmd.rw == cmdREAD
        · simp [h1, hb]
        · by_cases h2 : cmd.rw == cmdWRITE
          · simp [h1, h2, hb]
          · simp [h1, h2, hb]
      have hqT : b = true →
          processQueue sendRead sendWrite q
            = ((if (cmd.rw == cmdREAD) = true ∨ (cmd.rw == cmdWRITE) = true
                then [cmd] else []), FIFO.inc q) := by
        intro h; rw [hq, h, if_pos rfl]
      have hqF : b = false →
          processQueue sendRead sendWrite q
            = ((if (cmd.rw == cmdREAD) = true ∨ (cmd.rw == cmdWRITE) = true
                then [cmd] else []), q) := by
        intro h; rw [hq, h]; simp
      refine ⟨?_, ?_, ?_⟩
      · rw [hq]
        by_cases hbv : b <;> simp [hbv] <;> split <;> simp
      · intro cmd2 hload2
        have hc : cmd = cmd2 := by
          injection hload2
        subst hc
        constructor
        · intro hsucc
          have hbtrue : b = true := by rw [hb]; exact hsucc
          rw [hqT hbtrue]
          exact FIFO.inc_spec q hInv
        · intro hfail
          have hbfalse : b = false := by rw [hb]; exact hfail
          rw [hqF hbfalse]
          exact ⟨rfl, hload⟩
      · intro hcontra
        cases hcontra

/-- Witness for C3 at a concrete input: a depth-10 blocking queue (the
configuration built in MMPeriph.__init__) holding one read command, with an
always-succeeding transport. -/
theorem processQueue_two_phase_witness :
    FIFO.Inv (processQueue (fun _ => true) (fun _ _ => true)
        ((FIFO.add (FIFO.new Cmd 10 true) ⟨1, 5, 0⟩).2)).2 ∧
      FIFO.absList (processQueue (fun _ => true) (fun _ _ => true)
          ((FIFO.add (FIFO.new Cmd 10 true) ⟨1, 5, 0⟩).2)).2
        = (FIFO.absList ((FIFO.add (FIFO.new Cmd 10 true) ⟨1, 5, 0⟩).2)).tail :=
  ((processQueue_two_phase (fun _ => true) (fun _ _ => true)
      ((FIFO.add (FIFO.new Cmd 10 true) ⟨1, 5, 0⟩).2) (by decide)).2.1
    ⟨1, 5, 0⟩ (by decide)).1 (by decide)

/-!
Claim C9 — signed indexing of the FIFO.
-/

lemma natCast_add_emod_toNat (a b d : Nat) :
    (((a : Int) + (b : Int)) % (d : Int)).toNat = (a + b) % d := by
  rw [← Int.natCast_add, ← Int.natCast_mod, Int.toNat_natCast]

lemma emod_toNat_of_nonneg (i : Int) (b d : Nat) (h : 0 ≤ i) :
    ((i + (b : Int)) % (d : Int)).toNat = (i.toNat + b) % d := by
  obtain ⟨a, rfl⟩ : ∃ a : Nat, i = (a : Int) := ⟨i.toNat, (Int.toNat_of_nonneg h).symm⟩
  rw [Int.toNat_natCast]
  exact natCast_add_emod_toNat a b d

/-- C9 counterexample: on a depth-3 blocking FIFO holding exactly one item,
the out-of-range index 1 (between the item count 1 and depth-1 = 2) does
NOT raise an index error as the claim demands: `__getitem__` returns the
Python `None` empty-signal value. -/
theorem getitem_gap_returns_none :
    FIFO.getItem ((FIFO.add (FIFO.new Nat 3 true) 7).2) 1 = Except.ok none := by
  rfl

/-- C9 amended: on any invariant-satisfying FIFO state, `fifo[i]` returns
the i-th oldest cell for `0 ≤ i < count` (index 0 = oldest), the
(count+i)-th oldest cell for `-count ≤ i < 0` (index -1 = newest), and
raises `IndexError` only for `i < -count` or `i > depth - 1`; for
`count ≤ i ≤ depth - 1` (a nonempty range exactly when the buffer is not
full) it returns the `None` empty-signal instead of raising. -/
theorem getitem_indexing (α : Type) (f : FIFO α) (hInv : FIFO.Inv f) (i : Int) :
    (0 ≤ i → i < (f.getNumItems : Int) →
      FIFO.getItem f i = Except.ok ((FIFO.absList f).getD i.toNat none)) ∧
    (i < 0 → -(f.getNumItems : Int) ≤ i →
      FIFO.getItem f i
        = Except.ok ((FIFO.absList f).getD ((f.getNumItems : Int) + i).toNat none)) ∧
    (i < -(f.getNumItems : Int) →
      FIFO.getItem f i = Except.error "IndexError: Buffer index out of range.") ∧
    ((f.depth : Int) - 1 < i →
      FIFO.getItem f i = Except.error "IndexError: Buffer index out of range.") ∧
    ((f.getNumItems : Int) ≤ i → i ≤ (f.depth : Int) - 1 →
      FIFO.getItem f i = Except.ok none) := by
  have hd0 : 0 < f.depth := hInv.1
  have hg : f.getPtr < f.depth := hInv.2.2.2.1
  have hnd := FIFO.numItems_le_depth f hInv
  refine ⟨?_, ?_, ?_, ?_, ?_⟩
  · intro h0 h1
    unfold FIFO.getItem FIFO.convertGetIndex FIFO.convertGetIndexChecked
    rw [if_neg (by omega), if_neg (by omega), if_pos (by omega)]
    show Except.ok (f.buffer.getD ((i + (f.getPtr : Int)) % (f.depth : Int)).toNat none)
        = _
    rw [FIFO.absList_getD f i.toNat (by omega),
      emod_toNat_of_nonneg i f.getPtr f.depth h0, Nat.add_comm i.toNat f.getPtr]
  · intro h0 h1
    have hj0 : 0 ≤ (f.getNumItems : Int) + i := by omega
    unfold FIFO.getItem FIFO.convertGetIndex FIFO.convertGetIndexChecked
    rw [if_pos h0, if_neg (by omega), if_neg (by omega), if_pos (by omega)]
    show Except.ok (f.buffer.getD
        (((f.getNumItems : Int) + i + (f.getPtr : Int)) % (f.depth : Int)).toNat none)
      = _
    rw [FIFO.absList_getD f _ (show ((f.getNumItems : Int) + i).toNat < f.getNumItems
        by omega),
      emod_toNat_of_nonneg _ f.getPtr f.depth hj0,
      Nat.add_comm ((f.getNumItems : Int) + i).toNat f.getPtr]
  · intro h0
    unfold FIFO.getItem FIFO.convertGetIndex
    rw [if_pos (show i < 0 by omega), if_pos (by omega)]
  · intro h0
    unfold FIFO.getItem FIFO.convertGetIndex FIFO.convertGetIndexChecked
    rw [if_neg (show ¬ i < 0 by omega), if_pos (by omega)]
  · intro h0 h1
    unfold FIFO.getItem FIFO.convertGetIndex FIFO.convertGetIndexChecked
    rw [if_neg (show ¬ i < 0 by omega), if_neg (by omega), if_neg (by omega)]

/-- Witness for C9 (amended) at a concrete input: the oldest item of a
one-item FIFO is returned at index 0. -/
theorem getitem_indexing_witness :
    FIFO.getItem ((FIFO.add (FIFO.new Nat 3 true) 7).2) 0 = Except.ok (some 7) := by
  have h := (getitem_indexing Nat ((FIFO.add (FIFO.new Nat 3 true) 7).2)
      (by decide) 0).1 (by decide) (by decide)
  rw [h]
  rfl

/-!
## Register model (src/mmio/mmp.py, class Register)

A member is the Python dict built by `Register._addMember` (mmp.py:659-694)
with its six keys; permission strings are embedded after parsing
(`_parsePermissionString`) as the integer bitmask they denote.  The change
dict is an insertion-ordered association list, matching Python dict
semantics for string keys.
-/

structure Member where
  name : String
  offset : Nat
  width : Nat
  permissions : Nat
  value : Nat
  desc : Option String
deriving DecidableEq

/-- One entry of the `memberList` handed to `Register.__init__`
(mmp.py:535-545), with absent dict keys as `none` and numeric fields
already put through `_int` / `_parsePermissionString`. -/
structure MemberDesc where
  name : Option String
  offset : Option Nat
  width : Option Nat
  permissions : Option Nat
  value : Option Nat
  desc : Option String
deriving DecidableEq

/-- Python `str.startswith`, here over the character lists so that concrete
registers evaluate inside the kernel. -/
def strStartsWith (s pre : String) : Bool :=
  pre.data.isPrefixOf s.data

/-- Embeds `Register._isReserved` (mmp.py:696-700) with the prefix tuple
`_RESERVED_PREFIXES` (mmp.py:507). -/
def isReservedName (s : String) : Bool :=
  strStartsWith s "RESERVED" || strStartsWith s "_"

/-- Embeds `Register._bm` (mmp.py:702-708): the bitmask of a member. -/
def maskOf (m : Member) : Nat :=
  ((1 <<< m.width) - 1) <<< m.offset

/-- Embeds `Register.getMembers` (mmp.py:761-767) as a function of the
member list: all members whose name is not reserved-prefixed. -/
def getMembersOf (members : List Member) : List Member :=
  members.filter (fun m => !isReservedName m.name)

/-- Embeds `Register._isBitUsed` (mmp.py:629-635): whether bit `nBit` is
claimed by any non-reserved member. -/
def isBitUsed (members : List Member) (nBit : Nat) : Bool :=
  (getMembersOf members).any (fun m => maskOf m &&& (1 <<< nBit) != 0)

/-- Embeds `Register._binOnes` (mmp.py:647-654): the number of set bits of
`n` among the low `nbits` bits. -/
def binOnes (n : Nat) (nbits : Nat) : Nat :=
  (List.range nbits).countP (fun nbit => n &&& (1 <<< nbit) != 0)

/-- Embeds `Register.checkValidity` (mmp.py:584-603): OR all member masks
and sum all member widths in one pass, then flag out-of-bounds bits and
overlapping bits. -/
def checkValidity (size : Nat) (members : List Member) : Bool :=
  let p := members.foldl (fun (acc : Nat × Nat) m => (acc.1 ||| maskOf m, acc.2 + m.width)) (0, 0)
  if p.1 > (1 <<< size) - 1 then false
  else if binOnes p.1 size != p.2 then false
  else true

/-- Embeds `Register._addReservedMember` (mmp.py:637-645). -/
def mkReservedMember (nBitStart nBitEnd : Nat) : Member :=
  { name := "RESERVED"
    offset := nBitStart
    width := nBitEnd - nBitStart
    permissions := 0
    value := 0
    desc := some "" }

/-- Loop body of `Register.reserveBits` (mmp.py:605-623), iterating the bit
counter `i` for `fuel` more iterations (the Python loop runs `nbit` over
`range(size)`, so the initial call uses `i = 0` and `fuel = size`).
`inReserved`, `rstart` and `nBit` are the Python local variables. -/
def reserveBitsGo (ms : List Member) (inReserved : Bool) (rstart nBit i : Nat) :
    Nat → List Member
  | 0 => if inReserved then ms ++ [mkReservedMember rstart (nBit + 1)] else ms
  | fuel + 1 =>
      if isBitUsed ms i then
        (if inReserved then
          reserveBitsGo (ms ++ [mkReservedMember rstart i]) false rstart i (i + 1) fuel
        else
          reserveBitsGo ms false rstart i (i + 1) fuel)
      else
        (if inReserved then
          reserveBitsGo ms true rstart i (i + 1) fuel
        else
          reserveBitsGo ms true i i (i + 1) fuel)

/-- Embeds `Register.reserveBits` (mmp.py:605-623): synthesize a reserved
member for every maximal run of bits in `[0, size)` not claimed by a
non-reserved member. -/
def reserveBits (size : Nat) (ms : List Member) : List Member :=
  reserveBitsGo ms false 0 0 0 size

/-- Stable insertion of a member into a list sorted by ascending offset,
placing it after existing members of equal offset. -/
def insertByOffset (m : Member) : List Member → List Member
  | [] => [m]
  | x :: xs => if x.offset ≤ m.offset then x :: insertByOffset m xs else m :: x :: xs

/-- Embeds `self.members.sort(key = lambda x: x[self._sOFFSET])`
(mmp.py:548, 625-627): a stable sort by ascending offset. -/
def sortByOffset (ms : List Member) : List Member :=
  ms.foldl (fun acc m => insertByOffset m acc) []

/-- Embeds the member-construction defaults of `Register._addMember`
(mmp.py:659-694): width defaults to 1, offset to 0, value to 0, the name to
`R%04x` of the offset, and permissions inherit the register's permissions
when absent (mmp.py:540-543). -/
def mkMemberFromDesc (regPerm : Nat) (d : MemberDesc) : Member :=
  let width := d.width.getD 1
  let offset := d.offset.getD 0
  let name := match d.name with
    | none => "R" ++
        (String.mk (List.replicate (4 - (Nat.toDigits 16 offset).length) '0')) ++
        String.mk (Nat.toDigits 16 offset)
    | some s => s
  { name := name
    offset := offset
    width := width
    permissions := d.permissions.getD regPerm
    value := d.value.getD 0
    desc := d.desc }

structure Register where
  name : String
  addr : Nat
  size : Nat
  members : List Member
  changeDict : List (String × Nat)
deriving DecidableEq

/-- Embeds `Register.__init__` (mmp.py:521-552): build the members from the
description list, sort by offset, run `checkValidity` (whose Boolean result
the constructor discards — an invalid layout only prints), synthesize the
reserved members, and sort again.  The change dict starts empty and the
construction itself always completes. -/
def mkRegister (name : String) (addr size : Nat) (memberList : List MemberDesc)
    (permissionString : Nat) : Register :=
  let members0 := memberList.map (mkMemberFromDesc permissionString)
  let members1 := sortByOffset members0
  let _valid := checkValidity size members1
  let members2 := reserveBits size members1
  let members3 := sortByOffset members2
  { name := name, addr := addr, size := size, members := members3, changeDict := [] }

namespace Register

/-- `Register.getMembers` (mmp.py:761-767). -/
def getMembers (r : Register) : List Member :=
  getMembersOf r.members

/-- `Register.getMemberByName` (mmp.py:778-782): first member with the
given name, else Python `None`. -/
def getMemberByName (r : Register) (name : String) : Option Member :=
  r.members.find? (fun m => m.name == name)

end Register

/-- Python `dict.get(key, None)` on a string-keyed dict embedded as an
association list. -/
def dictGet (d : List (String × Nat)) (k : String) : Option Nat :=
  (d.find? (fun p => p.1 == k)).map (fun p => p.2)

/-- Python `dict[key] = value` on a string-keyed dict embedded as an
association list: update in place when present, else append. -/
def dictSet (d : List (String × Nat)) (k : String) (v : Nat) : List (String × Nat) :=
  if d.any (fun p => p.1 == k) then
    d.map (fun p => if p.1 == k then (k, v) else p)
  else
    d ++ [(k, v)]

namespace Register

/-- `Register.value` (mmp.py:973-981): OR of the packed contribution of
every member, reserved members included. -/
def value (r : Register) : Nat :=
  r.members.foldl (fun acc m => acc ||| ((m.value <<< m.offset) &&& maskOf m)) 0

/-- `Register.nextValue` (mmp.py:960-971): like `value` but with change-dict
entries (keyed by member name) overriding the stored member values. -/
def nextValue (r : Register) : Nat :=
  r.members.foldl
    (fun acc m => acc ||| (((dictGet r.changeDict m.name).getD m.value <<< m.offset) &&& maskOf m))
    0

/-- `Register.isChanged` (mmp.py:943-946). -/
def isChanged (r : Register) : Bool :=
  if r.changeDict.length > 0 then true else false

/-- `Register.resetChanges` (mmp.py:948-952). -/
def resetChanges (r : Register) : Register :=
  { r with changeDict := [] }

/-- `Register.setChangeDict` (mmp.py:907-911): record each supplied
`(memberName, value)` pair in the change dict, skipping unknown names. -/
def setChangeDict (r : Register) (regDict : List (String × Nat)) : Register :=
  let cd := regDict.foldl
    (fun cd p =>
      match r.getMemberByName p.1 with
      | some _ => dictSet cd p.1 p.2
      | none => cd)
    r.changeDict
  { r with changeDict := cd }

/-- Loop body of `Register.setChangeDictIfChanged` (mmp.py:917-921):
`newValue |= (value << offset) & mask` for the member named `p.1`.  A name
with no matching member makes `getMemberByName` return Python `None`, and
`self.getMask(member)` then dereferences `None` (mmp.py:919), raising
`AttributeError` — the `Except.error` branch. -/
def packStep (r : Register) (acc : Nat) (p : String × Nat) : Except String Nat :=
  match r.getMemberByName p.1 with
  | none => Except.error "AttributeError: NoneType object has no attribute get"
  | some m => Except.ok (acc ||| ((p.2 <<< m.offset) &&& maskOf m))

/-- `Register.setChangeDictIfChanged` (mmp.py:913-927): OR together the
packed values of exactly the supplied members, and record the changes only
when that differs from the current composite `value()`. -/
def setChangeDictIfChanged (r : Register) (regDict : List (String × Nat)) :
    Except String Register :=
  let currentValue := r.value
  match regDict.foldlM (packStep r) 0 with
  | Except.error e => Except.error e
  | Except.ok newValue =>
      if currentValue != newValue then Except.ok (r.setChangeDict regDict)
      else Except.ok r

/-- `Register.setChangeByName` (mmp.py:935-941).  `self.getMembers()`
returns a Python list, and the method immediately calls
`members.get(name, None)` on it; lists have no `get` method, so every call
raises `AttributeError` before any clamping or recording can happen. -/
def setChangeByName (r : Register) (name : String) (newValue : Nat) :
    Except String Register :=
  let _members := r.getMembers
  Except.error "AttributeError: list object has no attribute get"

/-- `Register.setMemberValueByName` (mmp.py:846-859).  The indexed loop
stores `value` into every member whose name matches; its loop variable
`memberName` is left holding the LAST member's name, and the change dict is
then probed with that leftover name.  When the probe hits and the stored
value equals the incoming one, `self.changeDict.pop(member)` is called with
the member dict itself as key, which raises (`dict` is unhashable).  An
empty member list leaves `memberName` unbound, raising `NameError`. -/
def setMemberValueByName (r : Register) (name : String) (value : Nat) :
    Except String Register :=
  let members2 := r.members.map (fun m => if m.name == name then { m with value := value } else m)
  match r.members.getLast? with
  | none => Except.error "NameError: name memberName is not defined"
  | some lastM =>
      match dictGet r.changeDict lastM.name with
      | none => Except.ok { r with members := members2 }
      | some changeVal =>
          if value == changeVal then
            Except.error "TypeError: unhashable key in changeDict.pop"
          else
            Except.ok { r with members := members2 }

/-- `Register.setMemberValue` (mmp.py:840-844): members of the model always
carry a name, so this always delegates to `setMemberValueByName`. -/
def setMemberValue (r : Register) (member : Member) (value : Nat) :
    Except String Register :=
  setMemberValueByName r member.name value

/-- `Register.set` (mmp.py:887-895): unpack each non-reserved member's
field from the raw register value and store it, then clear the change
dict. -/
def set (r : Register) (regValue : Nat) : Except String Register := do
  let r2 ← r.getMembers.foldlM
    (fun acc m => setMemberValue acc m ((regValue &&& maskOf m) >>> m.offset))
    r
  Except.ok r2.resetChanges

end Register

/-- Lookup in the `RegisterMap.regDict` (mmp.py:327-346), embedded as an
address-keyed association list. -/
def regMapGet (rm : List (Nat × Register)) (regAddr : Nat) : Option Register :=
  (rm.find? (fun p => p.1 == regAddr)).map (fun p => p.2)

/-- `RegisterMap.setRegisterIfChanged` (mmp.py:427-434): an unknown address
only prints a warning and returns (graceful not-found handling); a known
address delegates to `Register.setChangeDictIfChanged`, whose exceptions
propagate. -/
def setRegisterIfChanged (rm : List (Nat × Register)) (regAddr : Nat)
    (regDict : List (String × Nat)) : Except String (List (Nat × Register)) :=
  match regMapGet rm regAddr with
  | none => Except.ok rm
  | some register =>
      match register.setChangeDictIfChanged regDict with
      | Except.error e => Except.error e
      | Except.ok r2 => Except.ok (rm.map (fun p => if p.1 == regAddr then (p.1, r2) else p))

/-- Boolean test for the error branch of an embedded Python call. -/
def isErr : Except String β → Bool
  | Except.error _ => true
  | Except.ok _ => false

/-- Embeds the queue setup of `MMPeriph.__init__` (mmp.py:67-71):
`self.queued = True if queued else false`.  The lowercase name `false` is
bound nowhere in the module (Python spells the constant `False`), so
evaluating the else branch raises `NameError`; with a truthy `queued` the
controller builds its depth-10 blocking command FIFO. -/
def mmperiphInitQueue (queued : Bool) : Except String (Bool × Option (FIFO Cmd)) :=
  if queued then Except.ok (true, some (FIFO.new Cmd 10 true))
  else Except.error "NameError: name false is not defined"

/-!
## Claims about the Register / controller layer
-/

/-- The value `Register.setChangeDictIfChanged` computes as `newValue`
(mmp.py:915-921) when every supplied name resolves: the OR of the packed
values of exactly the supplied members, members not supplied contributing
nothing. -/
def suppliedOr (r : Register) (regDict : List (String × Nat)) : Nat :=
  regDict.foldl
    (fun acc p =>
      match r.getMemberByName p.1 with
      | some m => acc ||| ((p.2 <<< m.offset) &&& maskOf m)
      | none => acc)
    0

lemma packStep_foldlM_error (r : Register) (l : List (String × Nat)) :
    ∀ acc : Nat, l.any (fun p => (r.getMemberByName p.1).isNone) = true →
      l.foldlM (Register.packStep r) acc
        = Except.error "AttributeError: NoneType object has no attribute get" := by
  induction l with
  | nil => intro acc h; cases h
  | cons p t ih =>
      intro acc h
      rw [List.foldlM_cons]
      cases hm : r.getMemberByName p.1 with
      | none =>
          show Except.bind (Register.packStep r acc p) _ = _
          unfold Register.packStep
          rw [hm]
          rfl
      | some m =>
          show Except.bind (Register.packStep r acc p) _ = _
          unfold Register.packStep
          rw [hm]
          show t.foldlM (Register.packStep r) _ = _
          apply ih
          rw [List.any_cons] at h
          simp [hm] at h
          simpa using h

lemma packStep_foldlM_ok (r : Register) (l : List (String × Nat)) :
    ∀ acc : Nat, (∀ p ∈ l, (r.getMemberByName p.1).isSome = true) →
      l.foldlM (Register.packStep r) acc
        = Except.ok (l.foldl
            (fun acc p =>
              match r.getMemberByName p.1 with
              | some m => acc ||| ((p.2 <<< m.offset) &&& maskOf m)
              | none => acc)
            acc) := by
  induction l with
  | nil => intro acc _; rfl
  | cons p t ih =>
      intro acc h
      rw [List.foldlM_cons, List.foldl_cons]
      have hp := h p (List.mem_cons_self p t)
      cases hm : r.getMemberByName p.1 with
      | none => rw [hm] at hp; cases hp
      | some m =>
          show Except.bind (Register.packStep r acc p) _ = _
          unfold Register.packStep
          rw [hm]
          show t.foldlM (Register.packStep r) _ = _
          rw [ih _ (fun q hq => h q (List.mem_cons_of_mem p hq))]

/-!
Claim C10 — unknown member names raise, unknown addresses degrade
gracefully.
-/

/-- C10: feeding `Register.setChangeDictIfChanged` (and hence
`RegisterMap.setRegisterIfChanged` at a known address) a mapping holding at
least one name that is no member of the register raises an exception
(`getMask` applied to Python `None`), while an unknown register ADDRESS in
`setRegisterIfChanged` is degraded gracefully to a no-op warning — the
second conjunct shows the contrasting graceful path. -/
theorem unknown_member_name_raises (r : Register) (regDict : List (String × Nat))
    (rm : List (Nat × Register)) (a : Nat) (d2 : List (String × Nat))
    (hk : regDict.any (fun p => (r.getMemberByName p.1).isNone) = true)
    (ha : regMapGet rm a = none) :
    isErr (r.setChangeDictIfChanged regDict) = true ∧
      setRegisterIfChanged rm a d2 = Except.ok rm := by
  constructor
  · unfold Register.setChangeDictIfChanged
    rw [packStep_foldlM_error r regDict 0 hk]
    rfl
  · unfold setRegisterIfChanged
    rw [ha]

/-- Witness for C10 at a concrete input: a one-member register fed the
unknown name NOPE, and an empty register map probed at address 9. -/
theorem unknown_member_name_raises_witness :
    isErr (Register.setChangeDictIfChanged
        (mkRegister "R" 0 1
          [ { name := some "EN", offset := some 0, width := some 1,
              permissions := some 3, value := none, desc := none } ] 3)
        [("NOPE", 0)]) = true ∧
      setRegisterIfChanged [] 9 [("EN", 1)] = Except.ok [] :=
  unknown_member_name_raises
    (mkRegister "R" 0 1
      [ { name := some "EN", offset := some 0, width := some 1,
          permissions := some 3, value := none, desc := none } ] 3)
    [("NOPE", 0)] [] 9 [("EN", 1)] (by rfl) (by rfl)

/-!
Claim C5 — requestChangeIfDifferent and redundant writes.
-/

/-- A two-member register (A at bit 0, B at bit 1) whose confirmed values
are A = 0 and B = 1, so its composite confirmed value is 2. -/
def twoFieldRegister : Register :=
  mkRegister "R" 0 2
    [ { name := some "A", offset := some 0, width := some 1,
        permissions := some 3, value := none, desc := none },
      { name := some "B", offset := some 1, width := some 1,
        permissions := some 3, value := some 1, desc := none } ] 3

/-- C5 counterexample: requesting `{A: 0}` — the supplied value equal to
A's current confirmed value — must, per the claim, record nothing and leave
`hasPendingChange()` false.  The code instead compares the composite of
ONLY the supplied members (here 0) against the full confirmed composite
(here 2, from B), sees a difference, and records the redundant change:
`isChanged` becomes true. -/
theorem requestChangeIfDifferent_subset_false_positive :
    (Register.setChangeDictIfChanged twoFieldRegister [("A", 0)]).map Register.isChanged
      = Except.ok true := by
  rfl

/-- C5 amended: when every supplied name resolves to a member,
`setChangeDictIfChanged` records the supplied changes exactly when the OR
of the supplied members' packed values (members not supplied contributing
nothing) differs from the current confirmed composite; in particular
whenever that OR equals the confirmed composite — e.g. a mapping covering
every member with all values equal to the confirmed ones and reserved
fields zero — nothing is recorded and the register is returned
unchanged. -/
theorem requestChangeIfDifferent_suppliedOr (r : Register)
    (regDict : List (String × Nat))
    (hkeys : ∀ p ∈ regDict, (r.getMemberByName p.1).isSome = true) :
    r.setChangeDictIfChanged regDict
        = Except.ok (if r.value != suppliedOr r regDict
                     then r.setChangeDict regDict else r) ∧
      (suppliedOr r regDict = r.value →
        r.setChangeDictIfChanged regDict = Except.ok r) := by
  have hfold := packStep_foldlM_ok r regDict 0 hkeys
  constructor
  · unfold Register.setChangeDictIfChanged
    rw [hfold]
    show (if (r.value != suppliedOr r regDict) = true
          then Except.ok (r.setChangeDict regDict) else Except.ok r)
        = Except.ok (if (r.value != suppliedOr r regDict) = true
          then r.setChangeDict regDict else r)
    by_cases hc : (r.value != suppliedOr r regDict) = true
    · rw [if_pos hc, if_pos hc]
    · rw [if_neg hc, if_neg hc]
  · intro heq
    unfold Register.setChangeDictIfChanged
    rw [hfold]
    show (if (r.value != suppliedOr r regDict) = true
          then Except.ok (r.setChangeDict regDict) else Except.ok r) = Except.ok r
    rw [heq]
    simp

/-- Witness for C5 (amended) at a concrete input: supplying both members of
`twoFieldRegister` with exactly their confirmed values records nothing. -/
theorem requestChangeIfDifferent_suppliedOr_witness :
    Register.setChangeDictIfChanged twoFieldRegister [("A", 0), ("B", 1)]
      = Except.ok twoFieldRegister :=
  (requestChangeIfDifferent_suppliedOr twoFieldRegister [("A", 0), ("B", 1)]
    (by decide)).2 (by rfl)

/-!
Claim C1 — requestChange (Register.setChangeByName).
-/

/-- The section-8 scenario register: address 0x10, 8 bits, read-write EN at
offset 0 width 1, read-only STATUS at offset 1 width 2, all confirmed
values 0. -/
def scenarioRegister : Register :=
  mkRegister "REG" 16 8
    [ { name := some "EN", offset := some 0, width := some 1,
        permissions := some 3, value := none, desc := none },
      { name := some "STATUS", offset := some 1, width := some 2,
        permissions := some 1, value := none, desc := none } ] 3

/-- C1 evaluated at the claim's own scenario: `requestChange("EN", 1)` does
not clamp-and-store — it raises `AttributeError` before touching the change
set, because `setChangeByName` calls `.get(name, None)` on the Python LIST
returned by `getMembers()` (mmp.py:936-937).  The register's `nextValue()`
therefore stays 0 instead of becoming 1. -/
theorem requestChange_scenario_raises :
    Register.setChangeByName scenarioRegister "EN" 1
        = Except.error "AttributeError: list object has no attribute get" ∧
      Register.nextValue scenarioRegister = 0 := by
  exact ⟨rfl, rfl⟩

/-!
Claim C2 — setFromDevice (Register.set) and change-set clearing.
-/

/-- A single-member register (EN, offset 0, width 1, size 1) with the
pending change `{EN: 1}` recorded via the working `setChangeDict` path. -/
def pendingENRegister : Register :=
  Register.setChangeDict
    (mkRegister "R" 0 1
      [ { name := some "EN", offset := some 0, width := some 1,
          permissions := some 3, value := none, desc := none } ] 3)
    [("EN", 1)]

/-- C2 evaluated at a failing input: with the pending change `{EN: 1}`,
`set(1)` — whose extracted EN field 1 EQUALS the pending value — raises
instead of returning with an empty change set: `setMemberValueByName`
reaches `self.changeDict.pop(member)` with the unhashable member dict as
key (mmp.py:855-859; here the register's last member is EN itself, so the
leftover loop variable probes the pending key).  The second conjunct shows
the differing-value case (`set(0)`) does return with the change set
cleared. -/
theorem setFromDevice_raises_on_equal_pending :
    Register.set pendingENRegister 1
        = Except.error "TypeError: unhashable key in changeDict.pop" ∧
      (Register.set pendingENRegister 0).map Register.changeDict
        = Except.ok [] := by
  exact ⟨rfl, rfl⟩

/-!
Claim C6 — unqueued (direct) mode construction.
-/

/-- C6 evaluated at the failing input: constructing the controller with the
queued flag false evaluates the unbound lowercase name `false` in
`self.queued = True if queued else false` (mmp.py:67) and raises
`NameError`, so direct mode never completes construction; with the flag
true, construction succeeds and builds the depth-10 blocking command
queue. -/
theorem unqueued_init_raises :
    mmperiphInitQueue false = Except.error "NameError: name false is not defined" ∧
      mmperiphInitQueue true = Except.ok (true, some (FIFO.new Cmd 10 true)) := by
  exact ⟨rfl, rfl⟩

/-!
Claim C7 — checkValidity is exactly the no-overlap and in-bounds test.
-/

/-- Specification-side population count: the number of set bits of `n`. -/
def popCountSpec : Nat → Nat
  | 0 => 0
  | n + 1 => (n + 1) % 2 + popCountSpec ((n + 1) / 2)
decreasing_by simp_wf; omega

/-- The OR of all member bitmasks, as accumulated by `checkValidity`. -/
def orMasks (members : List Member) : Nat :=
  members.foldl (fun acc m => acc ||| maskOf m) 0

/-- The sum of all member widths, as accumulated by `checkValidity`. -/
def sumWidths (members : List Member) : Nat :=
  members.foldl (fun acc m => acc + m.width) 0

lemma popCountSpec_eq (n : Nat) : popCountSpec n = n % 2 + popCountSpec (n / 2) := by
  cases n with
  | zero => simp [popCountSpec]
  | succ m => rw [popCountSpec]

lemma land_shift_ne_zero (n b : Nat) : (n &&& (1 <<< b) != 0) = n.testBit b := by
  rw [show (1 : Nat) <<< b = 2 ^ b from by rw [Nat.shiftLeft_eq, one_mul],
    Nat.and_two_pow]
  cases h : n.testBit b
  · simp
  · have hp : 0 < 2 ^ b := Nat.pow_pos (by omega)
    simp [hp]

lemma binOnes_succ (n k : Nat) :
    binOnes n (k + 1) = binOnes (n / 2) k + (if n.testBit 0 then 1 else 0) := by
  unfold binOnes
  rw [List.range_succ_eq_map, List.countP_cons, List.countP_map]
  congr 1
  · apply List.countP_congr
    intro i _
    show (n &&& 1 <<< (i + 1) != 0) = true ↔ ((n / 2) &&& 1 <<< i != 0) = true
    rw [land_shift_ne_zero, land_shift_ne_zero, Nat.testBit_succ]
  · rw [land_shift_ne_zero]

lemma binOnes_eq_popCountSpec (k : Nat) :
    ∀ n, n < 2 ^ k → binOnes n k = popCountSpec n := by
  induction k with
  | zero =>
      intro n h
      have hn : n = 0 := by simpa using h
      subst hn
      simp [binOnes, popCountSpec]
  | succ k ih =>
      intro n h
      have h2 : 2 ^ (k + 1) = 2 * 2 ^ k := by ring
      rw [binOnes_succ, ih (n / 2) (by omega), popCountSpec_eq n, Nat.testBit_zero]
      have hmod : n % 2 = 0 ∨ n % 2 = 1 := by omega
      rcases hmod with hm | hm <;> simp [hm] <;> omega

lemma checkValidity_foldl_pair (members : List Member) :
    ∀ a b : Nat,
      members.foldl (fun (acc : Nat × Nat) m => (acc.1 ||| maskOf m, acc.2 + m.width)) (a, b)
        = (members.foldl (fun acc m => acc ||| maskOf m) a,
           members.foldl (fun acc m => acc + m.width) b) := by
  induction members with
  | nil => intro a b; rfl
  | cons m t ih => intro a b; rw [List.foldl_cons, List.foldl_cons, List.foldl_cons, ih]

/-- C7: `checkValidity` returns true exactly when the OR of all member
bitmasks has population count equal to the sum of the member widths (no
overlapping bits) and fits in `size` bits (no out-of-bounds bits).  The
trailing conjuncts record that construction completes regardless: for ANY
description list — a violating layout included — `mkRegister` yields a
register of the requested size with an empty change set (the constructor
discards the Boolean verdict of `checkValidity`; it only prints). -/
theorem checkValidity_popcount (size : Nat) (members : List Member)
    (nm : String) (a p : Nat) (descs : List MemberDesc) :
    (checkValidity size members = true ↔
      (popCountSpec (orMasks members) = sumWidths members ∧
        orMasks members ≤ 2 ^ size - 1)) ∧
    (mkRegister nm a size descs p).size = size ∧
    (mkRegister nm a size descs p).changeDict = [] := by
  refine ⟨?_, rfl, rfl⟩
  unfold checkValidity
  rw [checkValidity_foldl_pair members 0 0]
  show (if orMasks members > (1 <<< size) - 1 then false
        else if binOnes (orMasks members) size != sumWidths members then false
        else true) = true ↔ _
  rw [show (1 : Nat) <<< size = 2 ^ size from by rw [Nat.shiftLeft_eq, one_mul]]
  have hpow : 1 ≤ 2 ^ size := Nat.one_le_two_pow
  by_cases hb : orMasks members > 2 ^ size - 1
  · rw [if_pos hb]
    constructor
    · intro h; cases h
    · intro h; omega
  · rw [if_neg hb]
    have hlt : orMasks members < 2 ^ size := by omega
    rw [binOnes_eq_popCountSpec size (orMasks members) hlt]
    by_cases hc : popCountSpec (orMasks members) = sumWidths members
    · rw [hc]
      simp
      omega
    · rw [if_pos (by simpa using hc)]
      constructor
      · intro h; cases h
      · intro h; exact absurd h.1 hc

/-!
Claim C8 — reserved members complete the declared members to a partition of
the register's bits.
-/

lemma insertByOffset_perm (m : Member) (l : List Member) :
    List.Perm (insertByOffset m l) (m :: l) := by
  induction l with
  | nil => exact List.Perm.refl _
  | cons x xs ih =>
      unfold insertByOffset
      by_cases h : x.offset ≤ m.offset
      · rw [if_pos h]
        exact (ih.cons x).trans (List.Perm.swap m x xs)
      · rw [if_neg h]

lemma foldl_insertByOffset_perm (ms : List Member) :
    ∀ acc, List.Perm (ms.foldl (fun acc m => insertByOffset m acc) acc) (acc ++ ms) := by
  induction ms with
  | nil => intro acc; simp
  | cons m t ih =>
      intro acc
      rw [List.foldl_cons]
      have h1 := ih (insertByOffset m acc)
      have h2 : List.Perm (insertByOffset m acc ++ t) ((m :: acc) ++ t) :=
        (insertByOffset_perm m acc).append_right t
      have h3 : List.Perm ((m :: acc) ++ t) (acc ++ m :: t) := List.perm_middle.symm
      exact (h1.trans h2).trans h3

lemma sortByOffset_perm (ms : List Member) : List.Perm (sortByOffset ms) ms := by
  unfold sortByOffset
  simpa using foldl_insertByOffset_perm ms []

lemma isBitUsed_append_reserved (ms extra : List Member)
    (hext : ∀ m ∈ extra, m.name = "RESERVED") (c : Nat) :
    isBitUsed (ms ++ extra) c = isBitUsed ms c := by
  unfold isBitUsed getMembersOf
  rw [List.filter_append, List.any_append]
  have hnil : extra.filter (fun m => !isReservedName m.name) = [] := by
    rw [List.filter_eq_nil_iff]
    intro m hm
    rw [hext m hm]
    decide
  rw [hnil]
  simp

lemma covers_mkReserved (a e b : Nat) :
    (maskOf (mkReservedMember a e) &&& (1 <<< b) != 0)
      = (decide (a ≤ b) && decide (b < e)) := by
  rw [land_shift_ne_zero]
  show ((((1 <<< (e - a)) - 1) <<< a).testBit b) = _
  rw [show (1 : Nat) <<< (e - a) = 2 ^ (e - a) from by rw [Nat.shiftLeft_eq, one_mul],
    Nat.testBit_shiftLeft, Nat.testBit_two_pow_sub_one]
  by_cases h1 : a ≤ b
  · by_cases h2 : b < e
    · have h3 : b - a < e - a := by omega
      simp [h1, h2, h3]
    · have h3 : ¬ b - a < e - a := by omega
      simp [h1, h2, h3]
  · have h3 : ¬ b ≥ a := h1
    simp [h1, h3]

lemma countP_singleton_mkReserved (a e b : Nat) :
    ([mkReservedMember a e]).countP (fun m => maskOf m &&& (1 <<< b) != 0)
      = if a ≤ b ∧ b < e then 1 else 0 := by
  rw [List.countP_cons, List.countP_nil, covers_mkReserved]
  by_cases h1 : a ≤ b
  · by_cases h2 : b < e <;> simp [h1, h2]
  · simp [h1]

lemma pairwise_countP_le_one (l : List Member) (b : Nat)
    (h : l.Pairwise (fun m1 m2 => maskOf m1 &&& maskOf m2 = 0)) :
    l.countP (fun m => maskOf m &&& (1 <<< b) != 0) ≤ 1 := by
  induction l with
  | nil => simp
  | cons m t ih =>
      rw [List.countP_cons]
      rcases List.pairwise_cons.mp h with ⟨hm, ht⟩
      by_cases hc : (maskOf m &&& (1 <<< b) != 0) = true
      · rw [if_pos hc]
        have hzero : t.countP (fun m => maskOf m &&& (1 <<< b) != 0) = 0 := by
          rw [List.countP_eq_zero]
          intro x hx hcx
          have hd := hm x hx
          rw [land_shift_ne_zero] at hc hcx
          have hb2 : (maskOf m &&& maskOf x).testBit b = true := by
            rw [Nat.testBit_and, hc, hcx]
            rfl
          rw [hd, Nat.zero_testBit] at hb2
          cases hb2
        omega
      · rw [if_neg hc, Nat.add_zero]
        exact ih ht

lemma isBitUsed_eq_any (l : List Member)
    (h : ∀ m ∈ l, isReservedName m.name = false) (c : Nat) :
    isBitUsed l c = l.any (fun m => maskOf m &&& (1 <<< c) != 0) := by
  unfold isBitUsed getMembersOf
  rw [List.filter_eq_self.mpr (fun m hm => by rw [h m hm]; rfl)]

/-- Per-bit coverage added by the `reserveBits` scan: running the loop from
bit `i` with `fuel` iterations left adds, over the bits it has not yet
visited plus the open run it is tracking, exactly one covering reserved
member for every bit that no non-reserved member of `base` claims. -/
lemma reserveBitsGo_countP (base : List Member) (b : Nat) :
    ∀ (fuel : Nat) (i : Nat) (inRes : Bool) (rstart nBit : Nat) (extra : List Member),
      (∀ m ∈ extra, m.name = "RESERVED") →
      (inRes = true → nBit + 1 = i ∧ rstart < i ∧
        (∀ c, rstart ≤ c → c < i → isBitUsed base c = false)) →
      (extra.countP (fun m => maskOf m &&& (1 <<< b) != 0)
        = if b < (if inRes then rstart else i) ∧ isBitUsed base b = false
          then 1 else 0) →
      ((reserveBitsGo (base ++ extra) inRes rstart nBit i fuel).countP
          (fun m => maskOf m &&& (1 <<< b) != 0)
        = base.countP (fun m => maskOf m &&& (1 <<< b) != 0)
          + if b < i + fuel ∧ isBitUsed base b = false then 1 else 0) := by
  intro fuel
  induction fuel with
  | zero =>
      intro i inRes rstart nBit extra hext hinv hcnt
      cases inRes with
      | false =>
          simp only [Bool.false_eq_true, if_false] at hcnt
          show (base ++ extra).countP _ = _
          rw [List.countP_append, hcnt, Nat.add_zero]
      | true =>
          obtain ⟨hnb, hrs, hrun⟩ := hinv rfl
          simp only [eq_self_iff_true, if_true] at hcnt
          show ((base ++ extra) ++ [mkReservedMember rstart (nBit + 1)]).countP _ = _
          rw [List.countP_append, List.countP_append,
            countP_singleton_mkReserved, hcnt, hnb, Nat.add_zero]
          cases hub : isBitUsed base b with
          | false =>
              simp only [hub, eq_self_iff_true, and_true]
              rw [Nat.add_assoc]
              congr 1
              split_ifs <;> omega
          | true =>
              have hnotrun : ¬ (rstart ≤ b ∧ b < i) := by
                rintro ⟨hc1, hc2⟩
                rw [hrun b hc1 hc2] at hub
                cases hub
              simp only [hub, Bool.true_eq_false, and_false, if_false]
              rw [Nat.add_assoc]
              have : (if rstart ≤ b ∧ b < i then 1 else 0) = 0 := by
                rw [if_neg hnotrun]
              omega
  | succ fuel ih =>
      intro i inRes rstart nBit extra hext hinv hcnt
      show (reserveBitsGo (base ++ extra) inRes rstart nBit i (fuel + 1)).countP _ = _
      rw [show reserveBitsGo (base ++ extra) inRes rstart nBit i (fuel + 1)
          = (if isBitUsed (base ++ extra) i then
              (if inRes then
                reserveBitsGo ((base ++ extra) ++ [mkReservedMember rstart i])
                  false rstart i (i + 1) fuel
              else
                reserveBitsGo (base ++ extra) false rstart i (i + 1) fuel)
            else
              (if inRes then
                reserveBitsGo (base ++ extra) true rstart i (i + 1) fuel
              else
                reserveBitsGo (base ++ extra) true i i (i + 1) fuel)) from rfl]
      rw [isBitUsed_append_reserved base extra hext i]
      have harith : i + 1 + fuel = i + (fuel + 1) := by omega
      cases hu : isBitUsed base i with
      | true =>
          rw [if_pos rfl]
          cases inRes with
          | true =>
              obtain ⟨hnb, hrs, hrun⟩ := hinv rfl
              simp only [eq_self_iff_true, if_true] at hcnt
              rw [if_pos rfl, List.append_assoc]
              rw [ih (i + 1) false rstart i (extra ++ [mkReservedMember rstart i])
                (by intro m hm
                    rcases List.mem_append.mp hm with h | h
                    · exact hext m h
                    · rcases List.mem_singleton.mp h with rfl
                      rfl)
                (by intro h; cases h)
                (by rw [List.countP_append, hcnt, countP_singleton_mkReserved]
                    simp only [Bool.false_eq_true, if_false]
                    cases hub : isBitUsed base b with
                    | false =>
                        simp only [hub, eq_self_iff_true, and_true]
                        have hbne : b ≠ i := by
                          intro h; rw [h] at hub; rw [hub] at hu; cases hu
                        split_ifs <;> omega
                    | true =>
                        have hnotrun : ¬ (rstart ≤ b ∧ b < i) := by
                          rintro ⟨hc1, hc2⟩
                          rw [hrun b hc1 hc2] at hub
                          cases hub
                        simp only [hub, Bool.true_eq_false, and_false, if_false]
                        rw [if_neg hnotrun])]
              rw [harith]
          | false =>
              simp only [Bool.false_eq_true, if_false] at hcnt ⊢
              rw [ih (i + 1) false rstart i extra hext (by intro h; cases h)
                (by rw [hcnt]
                    simp only [Bool.false_eq_true, if_false]
                    cases hub : isBitUsed base b with
                    | false =>
                        simp only [hub, eq_self_iff_true, and_true]
                        have hbne : b ≠ i := by
                          intro h; rw [h] at hub; rw [hub] at hu; cases hu
                        split_ifs <;> omega
                    | true =>
                        simp only [hub, Bool.true_eq_false, and_false, if_false])]
              rw [harith]
      | false =>
          rw [if_neg (by simp)]
          cases inRes with
          | true =>
              obtain ⟨hnb, hrs, hrun⟩ := hinv rfl
              simp only [eq_self_iff_true, if_true] at hcnt
              rw [if_pos rfl]
              rw [ih (i + 1) true rstart i extra hext
                (by intro _
                    refine ⟨rfl, by omega, ?_⟩
                    intro c hc1 hc2
                    by_cases hci : c < i
                    · exact hrun c hc1 hci
                    · have hceq : c = i := by omega
                      rw [hceq]
                      exact hu)
                (by simp only [eq_self_iff_true, if_true]; exact hcnt)]
              rw [harith]
          | false =>
              simp only [Bool.false_eq_true, if_false] at hcnt ⊢
              rw [ih (i + 1) true i i extra hext
                (by intro _
                    refine ⟨rfl, by omega, ?_⟩
                    intro c hc1 hc2
                    have hceq : c = i := by omega
                    rw [hceq]
                    exact hu)
                (by simp only [eq_self_iff_true, if_true]; exact hcnt)]
              rw [harith]

lemma reserveBits_countP (size : Nat) (base : List Member) (b : Nat) :
    (reserveBits size base).countP (fun m => maskOf m &&& (1 <<< b) != 0)
      = base.countP (fun m => maskOf m &&& (1 <<< b) != 0)
        + if b < size ∧ isBitUsed base b = false then 1 else 0 := by
  have h := reserveBitsGo_countP base b size 0 false 0 0 []
    (by intro m hm; cases hm)
    (by intro h; cases h)
    (by simp)
  rw [List.append_nil] at h
  unfold reserveBits
  rw [h, Nat.zero_add]

/-- One of the declared members is itself named with a reserved prefix. -/
def underscoreDesc : MemberDesc :=
  { name := some "_X", offset := some 0, width := some 1,
    permissions := some 3, value := none, desc := none }

/-- C8 counterexample: the one-member list `[_X at offset 0, width 1]` is
non-overlapping and in-bounds for a 1-bit register (its `checkValidity` is
true, first conjunct), yet after construction bit 0 is covered TWICE: the
reserved-prefixed name makes `_isBitUsed` — which consults only
`getMembers()`, the non-reserved members — treat bit 0 as unused, so
`reserveBits` synthesizes a second, overlapping reserved member. -/
theorem reserved_partition_fails_on_reserved_name :
    checkValidity 1 (sortByOffset ([underscoreDesc].map (mkMemberFromDesc 3))) = true ∧
      (mkRegister "R" 0 1 [underscoreDesc] 3).members.countP
          (fun m => maskOf m &&& (1 <<< 0) != 0) = 2 := by
  exact ⟨rfl, rfl⟩

/-- C8 amended: for every register constructed from a member list that is
non-overlapping (pairwise disjoint masks), in-bounds, and — the correction —
has no member name carrying a reserved prefix, the declared members together
with the synthesized reserved members partition the register's bits: every
bit below `size` is covered by exactly one member of the final member
list. -/
theorem reserved_partition (nm : String) (a size perm : Nat)
    (descs : List MemberDesc)
    (hnores : ∀ m ∈ descs.map (mkMemberFromDesc perm), isReservedName m.name = false)
    (hdisj : (descs.map (mkMemberFromDesc perm)).Pairwise
      (fun m1 m2 => maskOf m1 &&& maskOf m2 = 0))
    (hbound : ∀ m ∈ descs.map (mkMemberFromDesc perm), maskOf m ≤ 2 ^ size - 1)
    (b : Nat) (hb : b < size) :
    (mkRegister nm a size descs perm).members.countP
        (fun m => maskOf m &&& (1 <<< b) != 0) = 1 := by
  set declared := descs.map (mkMemberFromDesc perm) with hdecl
  set sorted := sortByOffset declared with hsorted
  have hperm1 : List.Perm sorted declared := sortByOffset_perm declared
  have hmem : (mkRegister nm a size descs perm).members
      = sortByOffset (reserveBits size sorted) := rfl
  rw [hmem, (sortByOffset_perm (reserveBits size sorted)).countP_eq,
    reserveBits_countP size sorted b, hperm1.countP_eq]
  have hnores2 : ∀ m ∈ sorted, isReservedName m.name = false :=
    fun m hm => hnores m (hperm1.mem_iff.mp hm)
  have hany : isBitUsed sorted b
      = declared.any (fun m => maskOf m &&& (1 <<< b) != 0) := by
    rw [isBitUsed_eq_any sorted hnores2 b]
    cases hu : declared.any (fun m => maskOf m &&& (1 <<< b) != 0) with
    | true =>
        obtain ⟨m, hm, hc⟩ := List.any_eq_true.mp hu
        exact List.any_eq_true.mpr ⟨m, hperm1.mem_iff.mpr hm, hc⟩
    | false =>
        rw [List.any_eq_false] at hu
        rw [List.any_eq_false]
        intro m hm
        exact hu m (hperm1.mem_iff.mp hm)
  cases hu : declared.any (fun m => maskOf m &&& (1 <<< b) != 0) with
  | true =>
      rw [hany, hu]
      simp only [Bool.true_eq_false, and_false, if_false, Nat.add_zero]
      have hle := pairwise_countP_le_one declared b hdisj
      have hpos : 0 < declared.countP (fun m => maskOf m &&& (1 <<< b) != 0) := by
        obtain ⟨m, hm, hc⟩ := List.any_eq_true.mp hu
        exact List.countP_pos_iff.mpr ⟨m, hm, by simpa using hc⟩
      omega
  | false =>
      rw [hany, hu]
      have hzero : declared.countP (fun m => maskOf m &&& (1 <<< b) != 0) = 0 := by
        rw [List.countP_eq_zero]
        intro m hm hc
        have hx : declared.any (fun m => maskOf m &&& (1 <<< b) != 0) = true :=
          List.any_eq_true.mpr ⟨m, hm, hc⟩
        rw [hu] at hx
        cases hx
      rw [hzero, if_pos ⟨hb, rfl⟩]

/-- Witness for C8 (amended) at a concrete input: the EN/STATUS layout of
the section-8 scenario register, checked at bit 0. -/
theorem reserved_partition_witness :
    (mkRegister "REG" 16 8
        [ { name := some "EN", offset := some 0, width := some 1,
            permissions := some 3, value := none, desc := none },
          { name := some "STATUS", offset := some 1, width := some 2,
            permissions := some 1, value := none, desc := none } ] 3).members.countP
        (fun m => maskOf m &&& (1 <<< 0) != 0) = 1 :=
  reserved_partition "REG" 16 8 3
    [ { name := some "EN", offset := some 0, width := some 1,
        permissions := some 3, value := none, desc := none },
      { name := some "STATUS", offset := some 1, width := some 2,
        permissions := some 1, value := none, desc := none } ]
    (by decide) (by decide) (by decide) 0 (by decide)

end PenneyScripts
